import Mathlib

/-!
Verification of the BeatyPets RAG pipeline (DSPy + LanceDB notebook).

Shallow embedding of the notebook code: Python strings are lists of
characters, Python values that may be an `int` or a `str` are `PyVal`,
fallible Python code returns `Except PyErr`, and the external
collaborators (LanceDB search, the embedding model, the two LLM calls)
are explicit oracle parameters threaded through a state type `σ`.
-/

namespace BeatyPets

/-- A Python string, modelled as its list of characters. -/
abbrev PyStr := List Char

/-- Python exceptions raised by the notebook code. -/
inductive PyErr where
  | valueError (msg : String)
deriving DecidableEq, Repr

/-- A Python value that is either an `int` or a `str` (the two kinds of
value the accuracy metric can take in this program). -/
inductive PyVal where
  | int (n : Int)
  | str (s : PyStr)
deriving DecidableEq, Repr

/-- Python whitespace test, as used by `str.split()` and the regex `\s`. -/
def isPySpace (c : Char) : Bool := c.isWhitespace

/-- Accumulator-passing worker for `pyStrSplit`.  The accumulator holds the
characters of the word currently being read, in reverse order. -/
def pySplitAux : PyStr → PyStr → List PyStr
  | [], acc => if acc.isEmpty then [] else [acc.reverse]
  | c :: cs, acc =>
    if isPySpace c then
      if acc.isEmpty then pySplitAux cs [] else acc.reverse :: pySplitAux cs []
    else pySplitAux cs (c :: acc)

/-- Python `s.split()` with no arguments: split on runs of whitespace,
discarding empty strings (so leading and trailing whitespace is ignored). -/
def pyStrSplit (s : PyStr) : List PyStr := pySplitAux s []

/-- Python `' '.join(ws)`: interleave a single space between the parts. -/
def joinWithSpace : List PyStr → PyStr
  | [] => []
  | [w] => w
  | w :: ws => w ++ ' ' :: joinWithSpace ws

/-- Worker for `normSpace`; the flag records whether the previous character
was inside a whitespace run (so the run contributes only one space). -/
def normSpaceAux : Bool → PyStr → PyStr
  | _, [] => []
  | inRun, c :: cs =>
    if isPySpace c then
      if inRun then normSpaceAux true cs else ' ' :: normSpaceAux true cs
    else c :: normSpaceAux false cs

/-- Python `re.sub(r'\s+', ' ', s)`: replace every maximal whitespace run
with one single space. -/
def normSpace (s : PyStr) : PyStr := normSpaceAux false s

/-- Python `re.search(r'\d+', s)`: the leftmost maximal run of decimal
digits in `s`, or `none` when `s` holds no digit. -/
def reSearchDigits : PyStr → Option PyStr
  | [] => none
  | c :: cs =>
    if c.isDigit then some (c :: cs.takeWhile Char.isDigit)
    else reSearchDigits cs

/-- Python `int(ds)` for a nonempty string of decimal digits. -/
def pyIntOfDigits (ds : PyStr) : Int :=
  ds.foldl (fun acc c => 10 * acc + ((c.toNat - 48 : Nat) : Int)) 0

/-! ### The Chunker (`Vectorstore.split_text_into_chunks`) -/

/-- Python `range(start, stop, step)` as the list of produced indices.
Raises `ValueError` when `step = 0`; otherwise the length of the range is
the usual ceiling formula `max 0 ⌈(stop - start) / step⌉`, written here
with truncating `Int.toNat` so that an empty range gets length `0`. -/
def pyRange (start stop step : Int) : Except PyErr (List Int) :=
  if step = 0 then .error (.valueError "range() arg 3 must not be zero")
  else
    let n : Nat :=
      if 0 < step then ((stop - start).toNat + (step.toNat - 1)) / step.toNat
      else ((start - stop).toNat + ((-step).toNat - 1)) / (-step).toNat
    .ok ((List.range n).map (fun i : Nat => start + step * (i : Int)))

/-- Python slicing `l[a:b]` (step 1): negative bounds count from the end,
and both bounds are clamped into `[0, len l]`. -/
def pySlice (l : List α) (a b : Int) : List α :=
  let n : Int := l.length
  let s : Int := if a < 0 then max (n + a) 0 else min a n
  let e : Int := if b < 0 then max (n + b) 0 else min b n
  (l.take e.toNat).drop s.toNat

/-- `Vectorstore.split_text_into_chunks`:
`words = self.context_information.split()` followed by
`[' '.join(words[i:i + self.chunk_size]) for i in range(0, len(words), self.chunk_size)]`. -/
def split_text_into_chunks (context_information : PyStr) (chunk_size : Int) :
    Except PyErr (List PyStr) := do
  let words := pyStrSplit context_information
  let idxs ← pyRange 0 (words.length : Int) chunk_size
  .ok (idxs.map (fun i => joinWithSpace (pySlice words i (i + chunk_size))))

/-! ### The Evaluator normalization (`EvaluatorRAG.normalize_metric`) -/

/-- `EvaluatorRAG.normalize_metric`: on a string, `re.search(r'\d+', metric)`
and, when a match exists, `int(match.group())`; every other value (here: an
`int`) is returned unchanged. -/
def normalize_metric : PyVal → PyVal
  | .str s =>
    match reSearchDigits s with
    | some ds => .int (pyIntOfDigits ds)
    | none => .str s
  | .int n => .int n

/-! ### The hybrid-search reranker

The notebook delegates fusion to LanceDB
(`tbl.search(query, query_type='hybrid').rerank(reranker=LinearCombinationReranker(weight=0.7)).limit(top_k)`).
The reranker itself is library code that is not part of this repository,
so it is modelled from the specification. -/

/-- Modelled from the spec: one raw hybrid-search candidate as returned by
the Index Store, carrying the passage text, its normalized lexical and
vector scores, and its original lexical rank.  (The concrete candidate set
produced by LanceDB for a query is external and is not modelled.) -/
structure Candidate where
  text : PyStr
  lexScore : ℚ
  vecScore : ℚ
  lexRank : Nat
deriving DecidableEq, Repr

/-- Modelled from the spec: the fused score of the linear combination
reranker, `weight * normalized_vector_score + (1 - weight) * normalized_lexical_score`. -/
def fusedScore (weight : ℚ) (c : Candidate) : ℚ :=
  weight * c.vecScore + (1 - weight) * c.lexScore

/-- Modelled from the spec: candidate `a` is ranked at least as well as
candidate `b` — higher fused score first, ties broken by vector score,
then by original lexical rank. -/
def RerankLEP (weight : ℚ) (a b : Candidate) : Prop :=
  fusedScore weight b < fusedScore weight a ∨
    (fusedScore weight a = fusedScore weight b ∧
      (b.vecScore < a.vecScore ∨ (a.vecScore = b.vecScore ∧ a.lexRank ≤ b.lexRank)))

instance (weight : ℚ) (a b : Candidate) : Decidable (RerankLEP weight a b) := by
  unfold RerankLEP; infer_instance

/-- Boolean form of `RerankLEP`, used as the comparator for `List.mergeSort`. -/
def rerankLE (weight : ℚ) (a b : Candidate) : Bool :=
  decide (RerankLEP weight a b)

/-- Worker for `dedupByText`; `seen` holds the passage texts already kept. -/
def dedupAux (seen : List PyStr) : List Candidate → List Candidate
  | [] => []
  | c :: cs =>
    if c.text ∈ seen then dedupAux seen cs
    else c :: dedupAux (c.text :: seen) cs

/-- Modelled from the spec: deduplicate candidates by passage identity
(their text), keeping the first occurrence of each passage. -/
def dedupByText (cands : List Candidate) : List Candidate := dedupAux [] cands

/-- Modelled from the spec: LanceDB linear-combination reranking —
deduplicate by passage identity, then order by fused score (descending),
ties broken by vector score then original lexical rank. -/
def LinearCombinationReranker.rerank (weight : ℚ) (cands : List Candidate) :
    List Candidate :=
  (dedupByText cands).mergeSort (rerankLE weight)

/-- Python `sep.join(parts)`. -/
def joinSepC (sep : PyStr) : List PyStr → PyStr
  | [] => []
  | [t] => t
  | t :: ts => t ++ sep ++ joinSepC sep ts

/-- The pure part of `Vectorstore.search_table`: rerank the raw hybrid
candidates with weight 0.7, keep the first `top_k`, and join their texts
with the literal separator `"- context block: "`. -/
def search_table_pure (raw : List Candidate) (top_k : Nat) : PyStr :=
  joinSepC "- context block: ".data
    (((LinearCombinationReranker.rerank (7/10) raw).take top_k).map Candidate.text)

/-! ### The Index Store (`lancedb` tables used through `Vectorstore`) -/

/-- One persisted row, `{text, vector}`; the vector is produced by the
embedding collaborator from the text. -/
structure Row where
  text : PyStr
  vector : List ℚ
deriving DecidableEq, Repr

/-- The LanceDB database at one storage location: named tables of rows,
plus the set of tables carrying a full-text (lexical) index. -/
structure DB where
  tables : List (String × List Row)
  ftsIndexed : List String
deriving DecidableEq, Repr

/-- `db.table_names()`. -/
def DB.tableNames (db : DB) : List String := db.tables.map Prod.fst

/-- `db.create_table(name, schema=Schema, mode="overwrite")`: a fresh empty
table under `name`, replacing any existing table of that name. -/
def DB.createTableOverwrite (db : DB) (name : String) : DB :=
  { db with tables := (name, []) :: db.tables.filter (fun p => p.1 ≠ name) }

/-- `tbl.add(rows)` on the table called `name`. -/
def DB.addRows (db : DB) (name : String) (rows : List Row) : DB :=
  { db with tables := db.tables.map (fun p => if p.1 = name then (p.1, p.2 ++ rows) else p) }

/-- `tbl.create_fts_index("text", replace=True)` on the table called `name`. -/
def DB.createFtsIndex (db : DB) (name : String) : DB :=
  { db with ftsIndexed := name :: db.ftsIndexed.filter (· ≠ name) }

/-- The rows currently stored in the table called `name`. -/
def DB.getRows (db : DB) (name : String) : List Row :=
  ((db.tables.find? (fun p => p.1 = name)).map Prod.snd).getD []

/-- The row count of the table called `name`. -/
def DB.rowCount (db : DB) (name : String) : Nat := (db.getRows name).length

/-! ### `Vectorstore` -/

/-- The fields of a constructed `Vectorstore` instance. -/
structure Vectorstore where
  context_information : PyStr
  db_path : String
  tablename : String
  chunk_size : Int
deriving DecidableEq, Repr

/-- `Vectorstore._persist_on_db`: if the table name is absent, create the
table, chunk the context, collapse whitespace in each chunk
(`re.sub(r'\s+', ' ', text)`), embed and add the rows; otherwise just open
the existing table.  Either way, (re)build the lexical index over `text`. -/
def Vectorstore.persist_on_db (embed : PyStr → List ℚ) (tablename : String)
    (context_information : PyStr) (chunk_size : Int) (db : DB) :
    Except PyErr DB := do
  let db ←
    if tablename ∈ db.tableNames then
      .ok db
    else do
      let db := db.createTableOverwrite tablename
      let chunks ← split_text_into_chunks context_information chunk_size
      let contexts := chunks.map (fun text => normSpace text)
      .ok (db.addRows tablename (contexts.map (fun t => { text := t, vector := embed t })))
  .ok (db.createFtsIndex tablename)

/-- `Vectorstore.__init__`: raises `ValueError` when `context_information`
or `db_path` is `None`; otherwise stores the fields, connects to the
database at `db_path` (modelled by the `db` argument) and persists. -/
def Vectorstore.init (embed : PyStr → List ℚ)
    (context_information : Option PyStr) (db_path : Option String)
    (tablename : String) (chunk_size : Int) (db : DB) :
    Except PyErr (Vectorstore × DB) :=
  match context_information, db_path with
  | some ci, some dp => do
    let db1 ← Vectorstore.persist_on_db embed tablename ci chunk_size db
    .ok ({ context_information := ci, db_path := dp, tablename := tablename,
           chunk_size := chunk_size }, db1)
  | _, _ => .error (.valueError "Both context_information and db_path must be provided")

/-! ### The pipeline modules (`RAG`, `EvaluatorRAG`, `RAG_Assitant`)

The external collaborators — the LanceDB search over a table and the two
`dspy.ChainOfThought` LLM calls — are oracle parameters.  Each oracle is a
stateful, fallible function on an abstract state `σ`, so sequencing and
error propagation in the pipeline are captured by how the state and the
`Except` results are threaded. -/

/-- The structured output of the `GenerateAnswer` chain-of-thought call. -/
structure GenOut where
  answer : PyStr
  answer_rationale : PyStr
deriving DecidableEq, Repr

/-- The structured output of the `EvaluateAnswer` chain-of-thought call;
`accuracy_metric` may come back as a string or an integer. -/
structure EvalOut where
  accuracy_metric : PyVal
  rationale_metric : PyStr
deriving DecidableEq, Repr

/-- The external collaborators: the raw LanceDB hybrid search and the two
LLM calls, as stateful fallible oracles over a state type `σ`. -/
structure Oracles (σ ε : Type) where
  table_search : PyStr → σ → Except ε (List Candidate × σ)
  chain_generate : PyStr → PyStr → σ → Except ε (GenOut × σ)
  chain_evaluate : PyStr → PyStr → PyStr → PyStr → σ → Except ε (EvalOut × σ)

/-- `dspy.Prediction` as returned by `RAG.forward`. -/
structure Prediction where
  query : PyStr
  context_chunks : PyStr
  answer : PyStr
  answer_rationale : PyStr
deriving DecidableEq, Repr

/-- `dspy.Prediction` as returned by `EvaluatorRAG.forward` (also the shape
of the dictionary returned by `RAG_Assitant.process_question`). -/
structure Evaluation where
  query : PyStr
  context_chunks : PyStr
  answer : PyStr
  answer_rationale : PyStr
  accuracy_metric : PyVal
  rationale_metric : PyStr
deriving DecidableEq, Repr

/-- `Vectorstore.search_table`: run the raw hybrid search, rerank with the
`LinearCombinationReranker(weight=0.7)`, keep `top_k`, and join the texts
with the `"- context block: "` separator. -/
def Vectorstore.search_table (o : Oracles σ ε) (query_string : PyStr)
    (top_k : Nat) (s : σ) : Except ε (PyStr × σ) := do
  let (raw, s) ← o.table_search query_string s
  .ok (search_table_pure raw top_k, s)

/-- `RAG.forward`: retrieve the context with `search_table(..., top_k=3)`,
generate the answer with the `GenerateAnswer` chain of thought, and return
the combined `dspy.Prediction`. -/
def RAG.forward (o : Oracles σ ε) (query : PyStr) (s : σ) :
    Except ε (Prediction × σ) := do
  let (relevant_contexts, s) ← Vectorstore.search_table o query 3 s
  let (prediction, s) ← o.chain_generate query relevant_contexts s
  .ok ({ query := query, context_chunks := relevant_contexts,
         answer := prediction.answer,
         answer_rationale := prediction.answer_rationale }, s)

/-- `EvaluatorRAG.forward`: run the `EvaluateAnswer` chain of thought,
normalize the accuracy metric, and return the inputs together with the two
metrics. -/
def EvaluatorRAG.forward (o : Oracles σ ε) (query context_chunks answer
    answer_rationale : PyStr) (s : σ) : Except ε (Evaluation × σ) := do
  let (evaluation, s) ← o.chain_evaluate query context_chunks answer answer_rationale s
  .ok ({ query := query, context_chunks := context_chunks, answer := answer,
         answer_rationale := answer_rationale,
         accuracy_metric := normalize_metric evaluation.accuracy_metric,
         rationale_metric := evaluation.rationale_metric }, s)

/-- `RAG_Assitant.process_question`: `RAG.forward`, then `EvaluatorRAG.forward`
on its outputs, then the result dictionary assembled from the evaluation. -/
def RAG_Assitant.process_question (o : Oracles σ ε) (query : PyStr) (s : σ) :
    Except ε (Evaluation × σ) := do
  let (result, s) ← RAG.forward o query s
  let (evaluation, s) ← EvaluatorRAG.forward o query result.context_chunks
    result.answer result.answer_rationale s
  .ok ({ query := evaluation.query, context_chunks := evaluation.context_chunks,
         answer := evaluation.answer,
         answer_rationale := evaluation.answer_rationale,
         accuracy_metric := evaluation.accuracy_metric,
         rationale_metric := evaluation.rationale_metric }, s)

/-- `RAG.__init__`: raises `ValueError` when `context_information` or
`db_path` is `None`; otherwise constructs the inner `Vectorstore` with the
default table name `"context"` and default chunk size 50. -/
def RAG.init (embed : PyStr → List ℚ) (context_information : Option PyStr)
    (db_path : Option String) (db : DB) : Except PyErr (Vectorstore × DB) :=
  match context_information, db_path with
  | some ci, some dp => Vectorstore.init embed (some ci) (some dp) "context" 50 db
  | _, _ => .error (.valueError "Both context_information and db_path must be provided")

/-! ## Generic facts about the `Except` monad used to reason about the
do-blocks of the embedding -/

theorem exceptBind_error {ε α β : Type} (e : ε) (f : α → Except ε β) :
    (Except.error e >>= f) = Except.error e := rfl

theorem exceptBind_ok {ε α β : Type} (a : α) (f : α → Except ε β) :
    (Except.ok a >>= f) = f a := rfl

/-! ## Test fixtures (used by the witness theorems) -/

/-- A concrete hybrid-search candidate. -/
def testCand : Candidate :=
  { text := "hours".data, lexScore := 1, vecScore := 1/2, lexRank := 0 }

/-- Concrete collaborators over the state `Nat` (a call counter): every
stage succeeds and bumps the counter by one. -/
def testOracles : Oracles Nat PyErr :=
  { table_search := fun _ s => .ok ([testCand], s + 1),
    chain_generate := fun _ _ s =>
      .ok ({ answer := "Yes, open on Tuesday".data,
             answer_rationale := "hours cover Monday to Friday".data }, s + 1),
    chain_evaluate := fun _ _ _ _ s =>
      .ok ({ accuracy_metric := .str "10".data,
             rationale_metric := "directly supported".data }, s + 1) }

/-- The evaluation record produced by `testOracles` on any inputs. -/
def testEvalResult : Evaluation :=
  { query := "q".data, context_chunks := "ctx".data, answer := "ans".data,
    answer_rationale := "why".data, accuracy_metric := .int 10,
    rationale_metric := "directly supported".data }

/-! ## Claims -/

/-- C9: the score normalization of the Evaluator is idempotent — for every
value `m`, `normalize_metric (normalize_metric m) = normalize_metric m`:
a parsed integer is no longer a string and so passes through unchanged,
and a digit-free string passes through unchanged both times. -/
theorem normalize_metric_idempotent (m : PyVal) :
    normalize_metric (normalize_metric m) = normalize_metric m := by
  cases m with
  | int n => rfl
  | str s =>
    cases h : reSearchDigits s with
    | some ds => simp [normalize_metric, h]
    | none => simp [normalize_metric, h]

/-- C10: the Evaluator stage never alters its inputs — whenever
`EvaluatorRAG.forward` succeeds, the returned record carries `query`,
`context_chunks`, `answer` and `answer_rationale` back exactly equal to the
values passed in. -/
theorem evaluator_forward_frame {σ ε : Type} (o : Oracles σ ε)
    (query context_chunks answer answer_rationale : PyStr) (s : σ)
    (r : Evaluation) (s1 : σ)
    (h : EvaluatorRAG.forward o query context_chunks answer answer_rationale s
           = .ok (r, s1)) :
    r.query = query ∧ r.context_chunks = context_chunks ∧
    r.answer = answer ∧ r.answer_rationale = answer_rationale := by
  unfold EvaluatorRAG.forward at h
  cases he : o.chain_evaluate query context_chunks answer answer_rationale s with
  | error e => rw [he, exceptBind_error] at h; exact Except.noConfusion h
  | ok p =>
    obtain ⟨ev, s2⟩ := p
    rw [he, exceptBind_ok] at h
    simp only [Except.ok.injEq, Prod.mk.injEq] at h
    obtain ⟨hr, hs⟩ := h
    subst hr
    exact ⟨rfl, rfl, rfl, rfl⟩

/-- Witness for C10: a concrete successful run of the evaluator stage. -/
theorem evaluator_forward_frame_witness :
    (EvaluatorRAG.forward testOracles "q".data "ctx".data "ans".data "why".data 0
       = .ok (testEvalResult, 1)) ∧
    testEvalResult.query = "q".data ∧ testEvalResult.context_chunks = "ctx".data ∧
    testEvalResult.answer = "ans".data ∧ testEvalResult.answer_rationale = "why".data := by
  have hrun : EvaluatorRAG.forward testOracles "q".data "ctx".data "ans".data
      "why".data 0 = .ok (testEvalResult, 1) := rfl
  exact ⟨hrun, evaluator_forward_frame testOracles _ _ _ _ 0 _ 1 hrun⟩

/-- C8: constructing the system with an absent context corpus or an absent
storage location fails — both the `Vectorstore` constructor and the `RAG`
constructor raise `ValueError` instead of producing an instance whenever
`context_information` or `db_path` is not provided. -/
theorem init_requires_args (embed : PyStr → List ℚ) (ci : Option PyStr)
    (dp : Option String) (tablename : String) (chunk_size : Int) (db : DB)
    (h : ci = none ∨ dp = none) :
    Vectorstore.init embed ci dp tablename chunk_size db =
      .error (.valueError "Both context_information and db_path must be provided") ∧
    RAG.init embed ci dp db =
      .error (.valueError "Both context_information and db_path must be provided") := by
  rcases h with h | h
  · subst h; cases dp <;> simp [Vectorstore.init, RAG.init]
  · subst h; cases ci <;> simp [Vectorstore.init, RAG.init]

/-- Witness for C8: a missing context corpus at a concrete storage location. -/
theorem init_requires_args_witness :
    ((none : Option PyStr) = none ∨ (some "./db_lancedb" : Option String) = none) ∧
    Vectorstore.init (fun _ => []) none (some "./db_lancedb") "context" 50 ⟨[], []⟩ =
      .error (.valueError "Both context_information and db_path must be provided") :=
  ⟨Or.inl rfl,
    (init_requires_args (fun _ => []) none (some "./db_lancedb") "context" 50 ⟨[], []⟩
      (Or.inl rfl)).1⟩

/-- Helper: searching a table that yields a single candidate returns
exactly that candidate's text (a one-element join has no separator). -/
theorem search_table_pure_singleton (c : Candidate) :
    search_table_pure [c] 3 = c.text := by
  simp [search_table_pure, LinearCombinationReranker.rerank, dedupByText, dedupAux,
        List.mergeSort_singleton, joinSepC]

/-- C6: `process_question` invokes the Retriever, then the Generator, then
the Evaluator exactly once each in that order (the collaborator state is
threaded `s → s1 → s2 → s3`); a failure at any stage aborts the whole call
with that stage's error, and on success the full combined record is
returned — never a partial result. -/
theorem process_question_pipeline {σ ε : Type} (o : Oracles σ ε) (q : PyStr) (s : σ) :
    (∀ e, o.table_search q s = .error e →
       RAG_Assitant.process_question o q s = .error e) ∧
    (∀ raw s1 e, o.table_search q s = .ok (raw, s1) →
       o.chain_generate q (search_table_pure raw 3) s1 = .error e →
       RAG_Assitant.process_question o q s = .error e) ∧
    (∀ raw s1 g s2 e, o.table_search q s = .ok (raw, s1) →
       o.chain_generate q (search_table_pure raw 3) s1 = .ok (g, s2) →
       o.chain_evaluate q (search_table_pure raw 3) g.answer g.answer_rationale s2
         = .error e →
       RAG_Assitant.process_question o q s = .error e) ∧
    (∀ raw s1 g s2 ev s3, o.table_search q s = .ok (raw, s1) →
       o.chain_generate q (search_table_pure raw 3) s1 = .ok (g, s2) →
       o.chain_evaluate q (search_table_pure raw 3) g.answer g.answer_rationale s2
         = .ok (ev, s3) →
       RAG_Assitant.process_question o q s =
         .ok ({ query := q, context_chunks := search_table_pure raw 3,
                answer := g.answer, answer_rationale := g.answer_rationale,
                accuracy_metric := normalize_metric ev.accuracy_metric,
                rationale_metric := ev.rationale_metric }, s3)) := by
  refine ⟨?_, ?_, ?_, ?_⟩
  · intro e h
    unfold RAG_Assitant.process_question RAG.forward Vectorstore.search_table
    rw [h]
    simp only [exceptBind_error, exceptBind_ok]
  · intro raw s1 e h1 h2
    unfold RAG_Assitant.process_question RAG.forward Vectorstore.search_table
    rw [h1]
    simp only [exceptBind_error, exceptBind_ok]
    rw [h2]
    simp only [exceptBind_error, exceptBind_ok]
  · intro raw s1 g s2 e h1 h2 h3
    unfold RAG_Assitant.process_question RAG.forward Vectorstore.search_table
      EvaluatorRAG.forward
    rw [h1]
    simp only [exceptBind_error, exceptBind_ok]
    rw [h2]
    simp only [exceptBind_error, exceptBind_ok]
    rw [h3]
    simp only [exceptBind_error, exceptBind_ok]
  · intro raw s1 g s2 ev s3 h1 h2 h3
    unfold RAG_Assitant.process_question RAG.forward Vectorstore.search_table
      EvaluatorRAG.forward
    rw [h1]
    simp only [exceptBind_error, exceptBind_ok]
    rw [h2]
    simp only [exceptBind_error, exceptBind_ok]
    rw [h3]
    simp only [exceptBind_error, exceptBind_ok]

/-- Witness for C6: a fully successful concrete run — the orchestrator
returns the combined record after exactly three collaborator calls (the
call counter goes from 0 to 3). -/
theorem process_question_pipeline_witness :
    RAG_Assitant.process_question testOracles "Is it open on Tuesday?".data 0 =
      .ok ({ query := "Is it open on Tuesday?".data,
             context_chunks := "hours".data,
             answer := "Yes, open on Tuesday".data,
             answer_rationale := "hours cover Monday to Friday".data,
             accuracy_metric := .int 10,
             rationale_metric := "directly supported".data }, 3) := by
  have h := (process_question_pipeline testOracles "Is it open on Tuesday?".data 0).2.2.2
    [testCand] 1
    { answer := "Yes, open on Tuesday".data,
      answer_rationale := "hours cover Monday to Friday".data } 2
    { accuracy_metric := .str "10".data,
      rationale_metric := "directly supported".data } 3 rfl rfl rfl
  rw [search_table_pure_singleton testCand] at h
  exact h.trans (by rfl)

/-- Rebuilding the lexical index does not touch the stored tables. -/
theorem tableNames_createFtsIndex (db : DB) (n : String) :
    (db.createFtsIndex n).tableNames = db.tableNames := rfl

/-- Adding rows to a table does not change the set of table names. -/
theorem tableNames_addRows (db : DB) (n : String) (rows : List Row) :
    (db.addRows n rows).tableNames = db.tableNames := by
  unfold DB.addRows DB.tableNames
  simp only [List.map_map]
  have hfst : (Prod.fst ∘ fun p : String × List Row =>
      if p.1 = n then (p.1, p.2 ++ rows) else p) = Prod.fst := by
    funext p
    by_cases hp : p.1 = n <;> simp [hp]
  rw [hfst]

/-- A freshly created table is listed under its name. -/
theorem mem_tableNames_createTableOverwrite (db : DB) (n : String) :
    n ∈ (db.createTableOverwrite n).tableNames := by
  simp [DB.createTableOverwrite, DB.tableNames]

/-- C7: `ensure_table` (the `_persist_on_db` step) is idempotent — once a
first call has succeeded and produced database state `db1`, a second call
with the same name and data only rebuilds the lexical index: it leaves the
stored tables, and hence every row count, unchanged. -/
theorem ensure_table_idempotent (embed : PyStr → List ℚ) (tablename : String)
    (ci : PyStr) (cs : Int) (db db1 : DB)
    (h : Vectorstore.persist_on_db embed tablename ci cs db = .ok db1) :
    Vectorstore.persist_on_db embed tablename ci cs db1
        = .ok (db1.createFtsIndex tablename) ∧
    (db1.createFtsIndex tablename).tables = db1.tables ∧
    ∀ name, (db1.createFtsIndex tablename).rowCount name = db1.rowCount name := by
  have hmem1 : tablename ∈ db1.tableNames := by
    unfold Vectorstore.persist_on_db at h
    by_cases hmem : tablename ∈ db.tableNames
    · rw [if_pos hmem, exceptBind_ok] at h
      have hdb : db.createFtsIndex tablename = db1 := Except.ok.inj h
      subst hdb
      rw [tableNames_createFtsIndex]
      exact hmem
    · rw [if_neg hmem] at h
      cases hsplit : split_text_into_chunks ci cs with
      | error e =>
        rw [hsplit] at h
        simp only [exceptBind_error] at h
        exact Except.noConfusion h
      | ok chunks =>
        rw [hsplit] at h
        simp only [exceptBind_ok] at h
        have hdb : _ = db1 := Except.ok.inj h
        subst hdb
        rw [tableNames_createFtsIndex, tableNames_addRows]
        exact mem_tableNames_createTableOverwrite db tablename
  refine ⟨?_, rfl, fun name => rfl⟩
  unfold Vectorstore.persist_on_db
  rw [if_pos hmem1, exceptBind_ok]

/-- The database state after one successful ingestion of the two-word
corpus `"a b"` into the default table. -/
def testDB1 : DB :=
  { tables := [("context", [{ text := "a b".data, vector := [] }])],
    ftsIndexed := ["context"] }

/-- Witness for C7: a concrete first ingestion followed by a second call;
the row count of the table is 1 both before and after the second call. -/
theorem ensure_table_idempotent_witness :
    (Vectorstore.persist_on_db (fun _ => []) "context" "a b".data 50 ⟨[], []⟩
       = .ok testDB1) ∧
    (Vectorstore.persist_on_db (fun _ => []) "context" "a b".data 50 testDB1
       = .ok (testDB1.createFtsIndex "context")) ∧
    (testDB1.createFtsIndex "context").rowCount "context" = testDB1.rowCount "context" ∧
    testDB1.rowCount "context" = 1 := by
  have h1 : Vectorstore.persist_on_db (fun _ => []) "context" "a b".data 50 ⟨[], []⟩
      = .ok testDB1 := rfl
  have h := ensure_table_idempotent (fun _ => []) "context" "a b".data 50 ⟨[], []⟩
    testDB1 h1
  exact ⟨h1, h.1, h.2.2 "context", rfl⟩

/-- Scanning skips over a digit-free prefix. -/
theorem reSearchDigits_append (pre rest : PyStr) (h : ∀ c ∈ pre, c.isDigit = false) :
    reSearchDigits (pre ++ rest) = reSearchDigits rest := by
  induction pre with
  | nil => rfl
  | cons c cs ih =>
    have hc := h c (by simp)
    simp only [List.cons_append, reSearchDigits, hc, Bool.false_eq_true, if_false]
    exact ih fun x hx => h x (by simp [hx])

/-- Scanning a string that starts with a maximal digit run returns exactly
that run. -/
theorem reSearchDigits_run (d : Char) (ds post : PyStr)
    (hd : d.isDigit = true) (hds : ∀ c ∈ ds, c.isDigit = true)
    (hpost : ∀ c ∈ post.take 1, c.isDigit = false) :
    reSearchDigits ((d :: ds) ++ post) = some (d :: ds) := by
  simp only [List.cons_append, reSearchDigits, hd, if_true]
  rw [List.append_eq, List.takeWhile_append_of_pos hds]
  cases post with
  | nil => simp
  | cons p ps =>
    have hp := hpost p (by simp)
    simp [List.takeWhile_cons, hp]

/-- Scanning a digit-free string finds nothing. -/
theorem reSearchDigits_none (s : PyStr) (h : ∀ c ∈ s, c.isDigit = false) :
    reSearchDigits s = none := by
  induction s with
  | nil => rfl
  | cons c cs ih =>
    simp only [reSearchDigits, h c (by simp), Bool.false_eq_true, if_false]
    exact ih fun x hx => h x (by simp [hx])

/-- The fold computing `int(ds)` agrees with the little-endian digit value
`Nat.ofDigits`, for every starting accumulator. -/
theorem pyIntOfDigits_go (ds : PyStr) : ∀ a : ℤ,
    ds.foldl (fun acc c => 10 * acc + ((c.toNat - 48 : Nat) : ℤ)) a
      = a * 10 ^ ds.length +
        ((Nat.ofDigits 10 ((ds.map (fun c => c.toNat - 48)).reverse) : ℕ) : ℤ) := by
  induction ds with
  | nil => intro a; simp
  | cons c cs ih =>
    intro a
    rw [List.foldl_cons, ih]
    simp only [List.map_cons, List.reverse_cons, List.length_cons]
    push_cast [Nat.ofDigits_append, Nat.ofDigits_cons, Nat.ofDigits_nil]
    rw [List.length_reverse, List.length_map]
    ring

/-- `int(match.group())` is the decimal value of the digit run. -/
theorem pyIntOfDigits_eq (ds : PyStr) :
    pyIntOfDigits ds
      = ((Nat.ofDigits 10 ((ds.map (fun c => c.toNat - 48)).reverse) : ℕ) : ℤ) := by
  simpa [pyIntOfDigits] using pyIntOfDigits_go ds 0

/-- C1: the Evaluator normalization — a string is scanned for its first
contiguous decimal digit run, which is parsed as the integer score (no
clamping, no rejection of out-of-range values); a digit-free string is
passed through unmodified; a numeric value is returned unchanged.  In
particular `normalize("7") = 7`, `normalize("Score: 9 out of 10") = 9`,
`normalize("no digits here") = "no digits here"` and `normalize(8) = 8`. -/
theorem normalize_metric_spec :
    (∀ pre ds post : PyStr, (∀ c ∈ pre, c.isDigit = false) → ds ≠ [] →
       (∀ c ∈ ds, c.isDigit = true) → (∀ c ∈ post.take 1, c.isDigit = false) →
       normalize_metric (.str (pre ++ ds ++ post))
         = .int ((Nat.ofDigits 10 ((ds.map (fun c => c.toNat - 48)).reverse) : ℕ) : ℤ)) ∧
    (∀ s : PyStr, (∀ c ∈ s, c.isDigit = false) → normalize_metric (.str s) = .str s) ∧
    (∀ n : ℤ, normalize_metric (.int n) = .int n) ∧
    normalize_metric (.str "7".data) = .int 7 ∧
    normalize_metric (.str "Score: 9 out of 10".data) = .int 9 ∧
    normalize_metric (.str "no digits here".data) = .str "no digits here".data ∧
    normalize_metric (.int 8) = .int 8 ∧
    normalize_metric (.str "25".data) = .int 25 := by
  refine ⟨?_, ?_, fun n => rfl, by decide, by decide, by decide, rfl, by decide⟩
  · intro pre ds post hpre hne hds hpost
    obtain ⟨d, ds', rfl⟩ := List.exists_cons_of_ne_nil hne
    have h1 : reSearchDigits (pre ++ (d :: ds') ++ post) = some (d :: ds') := by
      rw [List.append_assoc, reSearchDigits_append pre _ hpre]
      exact reSearchDigits_run d ds' post (hds d (by simp))
        (fun c hc => hds c (by simp [hc])) hpost
    have h1' : reSearchDigits (pre ++ d :: (ds' ++ post)) = some (d :: ds') := by
      simpa using h1
    simp [normalize_metric, h1', pyIntOfDigits_eq]
  · intro s hs
    simp [normalize_metric, reSearchDigits_none s hs]

/-- Witness for C1: the decomposition at the concrete string `"S42x"`. -/
theorem normalize_metric_spec_witness :
    normalize_metric (.str "S42x".data) = .int 42 := by
  have h := normalize_metric_spec.1 ['S'] ['4', '2'] ['x']
    (by decide) (by decide) (by decide) (by decide)
  exact h.trans (by decide)

/-- A Python range with a negative step and `start ≤ stop` is empty. -/
theorem pyRange_neg_step (start stop step : Int) (h : step < 0) (hss : start ≤ stop) :
    pyRange start stop step = .ok [] := by
  unfold pyRange
  rw [if_neg (by omega : ¬ step = 0)]
  have hn : ((start - stop).toNat + ((-step).toNat - 1)) / (-step).toNat = 0 :=
    Nat.div_eq_of_lt (by omega)
  rw [if_neg (by omega : ¬ (0:Int) < step), hn]
  simp

/-- Counterexample to C3 as stated: with a negative chunk size the chunker
does not fail — it silently returns the empty sequence, because Python
`range(0, len(words), chunk_size)` is empty for a negative step. -/
theorem chunker_negative_counterexample :
    split_text_into_chunks ['a'] (-1) = .ok [] ∧
    ¬ ∃ e : PyErr, split_text_into_chunks ['a'] (-1) = .error e := by
  refine ⟨rfl, ?_⟩
  rintro ⟨e, he⟩
  rw [show split_text_into_chunks ['a'] (-1) = .ok [] from rfl] at he
  exact Except.noConfusion he

/-- C3 (amended): for `chunk_size = 0` the chunker fails (the `ValueError`
raised by `range` for a zero step); for `chunk_size < 0` it does not fail
but returns the empty chunk sequence. -/
theorem chunker_nonpositive (T : PyStr) (C : Int) (h : C ≤ 0) :
    (C = 0 → split_text_into_chunks T C
       = .error (.valueError "range() arg 3 must not be zero")) ∧
    (C < 0 → split_text_into_chunks T C = .ok []) := by
  constructor
  · rintro rfl
    unfold split_text_into_chunks pyRange
    simp [exceptBind_error]
  · intro hlt
    simp only [split_text_into_chunks]
    rw [pyRange_neg_step 0 _ C hlt (Int.natCast_nonneg _)]
    simp [exceptBind_ok]

/-- Witness for C3 (amended): concrete nonpositive chunk sizes. -/
theorem chunker_nonpositive_witness :
    ((-1 : Int) ≤ 0 ∧ split_text_into_chunks "a b".data (-1) = .ok []) ∧
    ((0 : Int) ≤ 0 ∧ split_text_into_chunks "a b".data 0
       = .error (.valueError "range() arg 3 must not be zero")) :=
  ⟨⟨by decide, (chunker_nonpositive "a b".data (-1) (by decide)).2 (by decide)⟩,
   ⟨le_refl 0, (chunker_nonpositive "a b".data 0 (le_refl 0)).1 rfl⟩⟩

/-! ### Word-level view of the chunk loop

`wordChunks c words` is the sequence of word slices
`words[i*c : i*c + c]` for `i` ranging over the chunk indices — the
word-level content of the list comprehension in
`split_text_into_chunks`. -/

/-- The word slices taken by the chunk loop. -/
def wordChunks (c : Nat) (words : List α) : List (List α) :=
  (List.range ((words.length + (c - 1)) / c)).map
    (fun i => (words.drop (i * c)).take c)

theorem wordChunks_nil (c : Nat) : wordChunks c ([] : List α) = [] := by
  unfold wordChunks
  have h0 : (([] : List α).length + (c - 1)) / c = 0 := by
    simp only [List.length_nil, Nat.zero_add]
    rcases Nat.eq_zero_or_pos c with h | h
    · subst h; exact Nat.div_zero _
    · exact Nat.div_eq_of_lt (by omega)
  rw [h0]
  rfl

theorem wordChunks_cons (c : Nat) (hc : 0 < c) (words : List α) (h : words ≠ []) :
    wordChunks c words = words.take c :: wordChunks c (words.drop c) := by
  unfold wordChunks
  have hlen : 0 < words.length := List.length_pos.mpr h
  have hstep : (words.length + (c - 1)) / c
      = ((words.drop c).length + (c - 1)) / c + 1 := by
    rw [List.length_drop]
    rcases Nat.lt_or_ge words.length c with hlt | hge
    · have h1 : words.length - c = 0 := by omega
      have h2 : (c - 1) / c = 0 := Nat.div_eq_of_lt (by omega)
      rw [h1, Nat.zero_add, h2]
      exact Nat.div_eq_of_lt_le (by omega) (by omega)
    · rw [← Nat.add_div_right (words.length - c + (c - 1)) hc]
      congr 1
      omega
  rw [hstep, List.range_succ_eq_map]
  simp only [List.map_cons, List.map_map]
  refine congrArg₂ List.cons (by simp) ?_
  apply List.map_congr_left
  intro i _
  simp only [Function.comp_apply, Nat.succ_eq_add_one]
  rw [List.drop_drop]
  congr 2
  ring

theorem wordChunks_flatten (c : Nat) (hc : 0 < c) :
    ∀ words : List α, (wordChunks c words).flatten = words
  | [] => by rw [wordChunks_nil]; rfl
  | w :: ws => by
    rw [wordChunks_cons c hc (w :: ws) (by simp), List.flatten_cons,
        wordChunks_flatten c hc ((w :: ws).drop c)]
    exact List.take_append_drop c (w :: ws)
termination_by words => words.length
decreasing_by
  simp only [List.length_drop, List.length_cons]
  omega

theorem wordChunks_length_le (c : Nat) (hc : 0 < c) :
    ∀ words : List α, ∀ ch ∈ wordChunks c words, ch.length ≤ c
  | [] => by rw [wordChunks_nil]; intro ch h; exact absurd h (List.not_mem_nil ch)
  | w :: ws => by
    rw [wordChunks_cons c hc (w :: ws) (by simp)]
    intro ch hch
    rcases List.mem_cons.mp hch with h | h
    · subst h; simp
    · exact wordChunks_length_le c hc ((w :: ws).drop c) ch h
termination_by words => words.length
decreasing_by
  simp only [List.length_drop, List.length_cons]
  omega

theorem wordChunks_ne_nil (c : Nat) (hc : 0 < c) :
    ∀ words : List α, ∀ ch ∈ wordChunks c words, ch ≠ []
  | [] => by rw [wordChunks_nil]; intro ch h; exact absurd h (List.not_mem_nil ch)
  | w :: ws => by
    rw [wordChunks_cons c hc (w :: ws) (by simp)]
    intro ch hch
    rcases List.mem_cons.mp hch with h | h
    · subst h
      intro hnil
      have hlen := congrArg List.length hnil
      simp at hlen
      omega
    · exact wordChunks_ne_nil c hc ((w :: ws).drop c) ch h
termination_by words => words.length
decreasing_by
  simp only [List.length_drop, List.length_cons]
  omega

/-- Every member of a slice is a member of the sliced list. -/
theorem wordChunks_mem_subset (c : Nat) (words : List α) (wc : List α)
    (hwc : wc ∈ wordChunks c words) : ∀ x ∈ wc, x ∈ words := by
  intro x hx
  unfold wordChunks at hwc
  obtain ⟨i, _, rfl⟩ := List.mem_map.mp hwc
  exact (List.drop_sublist _ _).subset ((List.take_sublist _ _).subset hx)

/-- Every chunk except possibly the last holds exactly `c` words. -/
theorem wordChunks_dropLast_length (c : Nat) (hc : 0 < c) :
    ∀ words : List α, ∀ ch ∈ (wordChunks c words).dropLast, ch.length = c
  | [] => by rw [wordChunks_nil]; intro ch h; exact absurd h (List.not_mem_nil ch)
  | w :: ws => by
    rw [wordChunks_cons c hc (w :: ws) (by simp)]
    intro ch hch
    rcases hrec : wordChunks c ((w :: ws).drop c) with _ | ⟨r, rs⟩
    · rw [hrec] at hch
      simp at hch
    · rw [hrec, List.dropLast_cons₂] at hch
      rcases List.mem_cons.mp hch with h | h
      · subst h
        have hne : (w :: ws).drop c ≠ [] := by
          intro hd
          rw [hd, wordChunks_nil] at hrec
          exact List.noConfusion hrec
        have hlt : c < (w :: ws).length := by
          have := List.length_pos.mpr hne
          simp only [List.length_drop] at this
          omega
        simp only [List.length_take]
        omega
      · rw [← hrec] at h
        exact wordChunks_dropLast_length c hc ((w :: ws).drop c) ch h
termination_by words => words.length
decreasing_by
  simp only [List.length_drop, List.length_cons]
  omega

/-! ### Facts about `pyStrSplit` and `joinWithSpace` -/

/-- Every word produced by the split worker is nonempty and contains no
whitespace, provided the accumulator contains none. -/
theorem pySplitAux_words (s : PyStr) : ∀ acc : PyStr,
    (∀ c ∈ acc, isPySpace c = false) →
    ∀ w ∈ pySplitAux s acc, w ≠ [] ∧ ∀ c ∈ w, isPySpace c = false := by
  induction s with
  | nil =>
    intro acc hacc w hw
    unfold pySplitAux at hw
    by_cases he : acc.isEmpty = true
    · simp [he] at hw
    · rw [if_neg he] at hw
      simp only [List.mem_singleton] at hw
      subst hw
      refine ⟨?_, fun c hc => hacc c (List.mem_reverse.mp hc)⟩
      intro hn
      rw [List.reverse_eq_nil_iff] at hn
      subst hn
      simp at he
  | cons c cs ih =>
    intro acc hacc w hw
    unfold pySplitAux at hw
    by_cases hsp : isPySpace c = true
    · rw [if_pos hsp] at hw
      by_cases he : acc.isEmpty = true
      · rw [if_pos he] at hw
        exact ih [] (by simp) w hw
      · rw [if_neg he] at hw
        rcases List.mem_cons.mp hw with h | h
        · subst h
          refine ⟨?_, fun x hx => hacc x (List.mem_reverse.mp hx)⟩
          intro hn
          rw [List.reverse_eq_nil_iff] at hn
          subst hn
          simp at he
        · exact ih [] (by simp) w h
    · rw [if_neg hsp] at hw
      refine ih (c :: acc) ?_ w hw
      intro x hx
      rcases List.mem_cons.mp hx with h | h
      · subst h
        exact Bool.eq_false_iff.mpr hsp
      · exact hacc x h

/-- Every word of a Python split is nonempty and whitespace-free. -/
theorem pyStrSplit_words (s : PyStr) :
    ∀ w ∈ pyStrSplit s, w ≠ [] ∧ ∀ c ∈ w, isPySpace c = false :=
  pySplitAux_words s [] (by simp)

/-- The split worker consumes a whitespace-free prefix into the
accumulator. -/
theorem pySplitAux_nospace_front (w : PyStr) :
    ∀ (rest acc : PyStr), (∀ c ∈ w, isPySpace c = false) →
      pySplitAux (w ++ rest) acc = pySplitAux rest (w.reverse ++ acc) := by
  induction w with
  | nil => intro rest acc _; simp
  | cons c cs ih =>
    intro rest acc hw
    have hc : isPySpace c = false := hw c (by simp)
    have h1 : pySplitAux ((c :: cs) ++ rest) acc = pySplitAux (cs ++ rest) (c :: acc) := by
      simp only [List.cons_append]
      conv_lhs => rw [pySplitAux]
      rw [if_neg (by simp [hc])]
    rw [h1, ih rest (c :: acc) (fun x hx => hw x (by simp [hx]))]
    congr 1
    simp

/-- The split worker flushes the accumulator at a space. -/
theorem pySplitAux_space_head (rest acc : PyStr) :
    pySplitAux (' ' :: rest) acc
      = if acc.isEmpty then pySplitAux rest []
        else acc.reverse :: pySplitAux rest [] := by
  conv_lhs => rw [pySplitAux]
  rw [if_pos (by decide)]

/-- Splitting a space-joined list of nonempty whitespace-free words
recovers exactly those words. -/
theorem pyStrSplit_joinWithSpace : ∀ ws : List PyStr,
    (∀ w ∈ ws, w ≠ [] ∧ ∀ c ∈ w, isPySpace c = false) →
    pyStrSplit (joinWithSpace ws) = ws := by
  intro ws
  induction ws with
  | nil => intro _; rfl
  | cons w ws ih =>
    intro h
    obtain ⟨hne, hnospace⟩ := h w (by simp)
    have hrev : w.reverse.isEmpty = false :=
      List.isEmpty_eq_false.mpr (by simpa using hne)
    cases ws with
    | nil =>
      show pySplitAux (joinWithSpace [w]) [] = [w]
      rw [show joinWithSpace [w] = w from rfl]
      rw [show pySplitAux w [] = pySplitAux (w ++ []) [] by rw [List.append_nil]]
      rw [pySplitAux_nospace_front w [] [] hnospace]
      unfold pySplitAux
      rw [List.append_nil, if_neg (by simp [hrev])]
      rw [List.reverse_reverse]
    | cons w2 ws2 =>
      show pySplitAux (joinWithSpace (w :: w2 :: ws2)) [] = w :: w2 :: ws2
      rw [show joinWithSpace (w :: w2 :: ws2)
            = w ++ ' ' :: joinWithSpace (w2 :: ws2) from rfl]
      rw [pySplitAux_nospace_front w _ [] hnospace]
      rw [List.append_nil, pySplitAux_space_head]
      rw [if_neg (by simp [hrev]), List.reverse_reverse]
      exact congrArg (w :: ·) (ih fun x hx => h x (by simp [hx]))

/-- Joining an appended pair of nonempty lists inserts one space at the
seam. -/
theorem joinWithSpace_append : ∀ xs ys : List PyStr, xs ≠ [] → ys ≠ [] →
    joinWithSpace (xs ++ ys) = joinWithSpace xs ++ ' ' :: joinWithSpace ys := by
  intro xs
  induction xs with
  | nil => intro ys hx _; exact absurd rfl hx
  | cons x xs ih =>
    intro ys _ hy
    cases xs with
    | nil =>
      obtain ⟨y, ys2, rfl⟩ := List.exists_cons_of_ne_nil hy
      rfl
    | cons x2 xs2 =>
      have ihh := ih ys (by simp) hy
      simp only [List.cons_append] at ihh ⊢
      rw [show joinWithSpace (x :: x2 :: (xs2 ++ ys))
            = x ++ ' ' :: joinWithSpace (x2 :: (xs2 ++ ys)) from rfl]
      rw [ihh]
      rw [show joinWithSpace (x :: x2 :: xs2)
            = x ++ ' ' :: joinWithSpace (x2 :: xs2) from rfl]
      simp

/-- Joining the per-chunk joins equals joining the flattened word list,
provided every chunk is nonempty. -/
theorem joinWithSpace_map_flatten : ∀ wcs : List (List PyStr),
    (∀ wc ∈ wcs, wc ≠ []) →
    joinWithSpace (wcs.map joinWithSpace) = joinWithSpace wcs.flatten := by
  intro wcs
  induction wcs with
  | nil => intro _; rfl
  | cons wc wcs ih =>
    intro h
    cases wcs with
    | nil => simp [joinWithSpace]
    | cons wc2 wcs2 =>
      have hwc : wc ≠ [] := h wc (by simp)
      have hflat : (wc2 :: wcs2).flatten ≠ [] := by
        have hwc2 : wc2 ≠ [] := h wc2 (by simp)
        simp only [List.flatten_cons]
        intro hf
        exact hwc2 (List.append_eq_nil.mp hf).1
      rw [List.map_cons]
      rw [show joinWithSpace (joinWithSpace wc
              :: List.map joinWithSpace (wc2 :: wcs2))
            = joinWithSpace wc ++ ' '
              :: joinWithSpace (List.map joinWithSpace (wc2 :: wcs2)) from rfl]
      rw [ih (fun x hx => h x (by simp [hx]))]
      rw [show (wc :: wc2 :: wcs2).flatten = wc ++ (wc2 :: wcs2).flatten from rfl]
      rw [joinWithSpace_append wc _ hwc hflat]

/-- The Python slice `words[k : k + c]` (with nonnegative bounds) is
`take c` after `drop k`. -/
theorem pySlice_chunk (l : List α) (k c : Nat) :
    pySlice l (k : Int) ((k : Int) + (c : Int)) = (l.drop k).take c := by
  simp only [pySlice]
  rw [if_neg (by omega), if_neg (by omega)]
  have hs : (min (k : Int) (l.length : Int)).toNat = min k l.length := by omega
  have he : (min ((k : Int) + (c : Int)) (l.length : Int)).toNat
      = min (k + c) l.length := by omega
  rw [hs, he]
  rcases Nat.le_total k l.length with hk | hk
  · rw [Nat.min_eq_left hk]
    have htake : l.take (min (k + c) l.length) = l.take (k + c) := by
      rcases Nat.le_total (k + c) l.length with h | h
      · rw [Nat.min_eq_left h]
      · rw [Nat.min_eq_right h, List.take_length, List.take_of_length_le h]
    rw [htake]
    exact (List.take_drop k c l).symm
  · rw [Nat.min_eq_right hk, Nat.min_eq_right (by omega : l.length ≤ k + c)]
    rw [List.take_length, List.drop_length, List.drop_eq_nil_of_le hk]
    exact List.take_nil.symm

/-- For a positive chunk size, `split_text_into_chunks` succeeds and
returns exactly the space-joined word slices of `wordChunks`. -/
theorem split_text_into_chunks_pos (T : PyStr) (C : Int) (hC : 0 < C) :
    split_text_into_chunks T C
      = .ok ((wordChunks C.toNat (pyStrSplit T)).map joinWithSpace) := by
  simp only [split_text_into_chunks]
  have hrange : pyRange 0 ((pyStrSplit T).length : Int) C
      = .ok ((List.range (((pyStrSplit T).length + (C.toNat - 1)) / C.toNat)).map
          (fun i : Nat => C * (i : Int))) := by
    unfold pyRange
    rw [if_neg (by omega), if_pos hC]
    simp only [sub_zero, Int.toNat_natCast, zero_add]
  rw [hrange, exceptBind_ok]
  congr 1
  unfold wordChunks
  rw [List.map_map, List.map_map]
  apply List.map_congr_left
  intro i _
  simp only [Function.comp_apply]
  congr 1
  have hcast : C * (i : Int) = ((i * C.toNat : Nat) : Int) := by
    push_cast
    rw [Int.toNat_of_nonneg (by omega)]
    ring
  rw [hcast]
  have hcast2 : ((i * C.toNat : Nat) : Int) + C = ((i * C.toNat : Nat) : Int) + (C.toNat : Int) := by
    omega
  rw [hcast2]
  exact pySlice_chunk (pyStrSplit T) (i * C.toNat) C.toNat

/-- C2: the Chunker — for every text `T` and chunk size `C > 0` the split
succeeds; every chunk holds at most `C` words and every chunk except
possibly the last holds exactly `C`; joining the chunks with single spaces
reconstructs the whitespace-normalized text (the same word sequence, hence
the same word count); empty input yields the empty sequence. -/
theorem chunker_spec (T : PyStr) (C : Int) (hC : 0 < C) :
    ∃ chunks, split_text_into_chunks T C = .ok chunks ∧
      (∀ ch ∈ chunks, ((pyStrSplit ch).length : Int) ≤ C) ∧
      (∀ ch ∈ chunks.dropLast, ((pyStrSplit ch).length : Int) = C) ∧
      joinWithSpace chunks = joinWithSpace (pyStrSplit T) ∧
      (chunks.map pyStrSplit).flatten = pyStrSplit T ∧
      (T = [] → chunks = []) := by
  have hc : 0 < C.toNat := by omega
  have hrt : ∀ wc ∈ wordChunks C.toNat (pyStrSplit T),
      pyStrSplit (joinWithSpace wc) = wc := by
    intro wc hwc
    refine pyStrSplit_joinWithSpace wc ?_
    intro x hx
    exact pyStrSplit_words T x (wordChunks_mem_subset C.toNat (pyStrSplit T) wc hwc x hx)
  refine ⟨(wordChunks C.toNat (pyStrSplit T)).map joinWithSpace,
    split_text_into_chunks_pos T C hC, ?_, ?_, ?_, ?_, ?_⟩
  · intro ch hch
    obtain ⟨wc, hwc, rfl⟩ := List.mem_map.mp hch
    rw [hrt wc hwc]
    have := wordChunks_length_le C.toNat hc (pyStrSplit T) wc hwc
    omega
  · intro ch hch
    rw [← List.map_dropLast] at hch
    obtain ⟨wc, hwc, rfl⟩ := List.mem_map.mp hch
    have hwc' : wc ∈ wordChunks C.toNat (pyStrSplit T) :=
      (List.dropLast_sublist _).subset hwc
    rw [hrt wc hwc']
    have := wordChunks_dropLast_length C.toNat hc (pyStrSplit T) wc hwc
    omega
  · rw [joinWithSpace_map_flatten _ (wordChunks_ne_nil C.toNat hc (pyStrSplit T)),
        wordChunks_flatten C.toNat hc]
  · rw [List.map_map]
    have hmap : (wordChunks C.toNat (pyStrSplit T)).map (pyStrSplit ∘ joinWithSpace)
        = wordChunks C.toNat (pyStrSplit T) := by
      conv_rhs => rw [← List.map_id (wordChunks C.toNat (pyStrSplit T))]
      apply List.map_congr_left
      intro wc hwc
      exact hrt wc hwc
    rw [hmap, wordChunks_flatten C.toNat hc]
  · intro hT
    subst hT
    rw [show pyStrSplit ([] : PyStr) = [] from rfl, wordChunks_nil]
    rfl

/-- Witness for C2: chunking the three-word text `"a b c"` at size 2. -/
theorem chunker_spec_witness :
    ((0 : Int) < 2) ∧
    split_text_into_chunks "a b c".data 2 = .ok ["a b".data, "c".data] ∧
    (∃ chunks, split_text_into_chunks "a b c".data 2 = .ok chunks ∧
       joinWithSpace chunks = joinWithSpace (pyStrSplit "a b c".data)) := by
  refine ⟨by decide, rfl, ?_⟩
  obtain ⟨chunks, h1, _, _, h4, _, _⟩ := chunker_spec "a b c".data 2 (by decide)
  exact ⟨chunks, h1, h4⟩

/-! ### Facts about the reranker order and deduplication -/

/-- The rerank order is total. -/
theorem rerankLEP_total (w : ℚ) (a b : Candidate) :
    RerankLEP w a b ∨ RerankLEP w b a := by
  unfold RerankLEP
  rcases lt_trichotomy (fusedScore w a) (fusedScore w b) with h | h | h
  · exact Or.inr (Or.inl h)
  · rcases lt_trichotomy a.vecScore b.vecScore with h2 | h2 | h2
    · exact Or.inr (Or.inr ⟨h.symm, Or.inl h2⟩)
    · rcases Nat.le_total a.lexRank b.lexRank with h3 | h3
      · exact Or.inl (Or.inr ⟨h, Or.inr ⟨h2, h3⟩⟩)
      · exact Or.inr (Or.inr ⟨h.symm, Or.inr ⟨h2.symm, h3⟩⟩)
    · exact Or.inl (Or.inr ⟨h, Or.inl h2⟩)
  · exact Or.inl (Or.inl h)

/-- The rerank order is transitive. -/
theorem rerankLEP_trans (w : ℚ) (a b c : Candidate) :
    RerankLEP w a b → RerankLEP w b c → RerankLEP w a c := by
  unfold RerankLEP
  intro h1 h2
  rcases h1 with h1 | ⟨e1, t1⟩
  · rcases h2 with h2 | ⟨e2, t2⟩
    · exact Or.inl (lt_trans h2 h1)
    · exact Or.inl (by rw [e2] at h1; exact h1)
  · rcases h2 with h2 | ⟨e2, t2⟩
    · exact Or.inl (by rw [← e1] at h2; exact h2)
    · refine Or.inr ⟨e1.trans e2, ?_⟩
      rcases t1 with t1 | ⟨v1, r1⟩
      · rcases t2 with t2 | ⟨v2, r2⟩
        · exact Or.inl (lt_trans t2 t1)
        · exact Or.inl (by rw [← v2]; exact t1)
      · rcases t2 with t2 | ⟨v2, r2⟩
        · exact Or.inl (by rw [v1]; exact t2)
        · exact Or.inr ⟨v1.trans v2, le_trans r1 r2⟩

theorem rerankLE_trans (w : ℚ) (a b c : Candidate) :
    rerankLE w a b → rerankLE w b c → rerankLE w a c := by
  simp only [rerankLE, decide_eq_true_eq]
  exact rerankLEP_trans w a b c

theorem rerankLE_total (w : ℚ) (a b : Candidate) :
    rerankLE w a b || rerankLE w b a := by
  simp only [rerankLE, Bool.or_eq_true, decide_eq_true_eq]
  exact rerankLEP_total w a b

/-- Deduplication only keeps candidates from the input. -/
theorem dedupAux_subset : ∀ (l : List Candidate) (seen : List PyStr),
    ∀ x ∈ dedupAux seen l, x ∈ l := by
  intro l
  induction l with
  | nil => intro seen x hx; simp [dedupAux] at hx
  | cons c cs ih =>
    intro seen x hx
    unfold dedupAux at hx
    by_cases hc : c.text ∈ seen
    · rw [if_pos hc] at hx
      exact List.mem_cons_of_mem c (ih seen x hx)
    · rw [if_neg hc] at hx
      rcases List.mem_cons.mp hx with h | h
      · exact h ▸ List.mem_cons_self c cs
      · exact List.mem_cons_of_mem c (ih _ x h)

/-- Deduplication never emits a text recorded as already seen. -/
theorem dedupAux_text_not_seen : ∀ (l : List Candidate) (seen : List PyStr),
    ∀ x ∈ dedupAux seen l, x.text ∉ seen := by
  intro l
  induction l with
  | nil => intro seen x hx; simp [dedupAux] at hx
  | cons c cs ih =>
    intro seen x hx
    unfold dedupAux at hx
    by_cases hc : c.text ∈ seen
    · rw [if_pos hc] at hx
      exact ih seen x hx
    · rw [if_neg hc] at hx
      rcases List.mem_cons.mp hx with h | h
      · subst h; exact hc
      · intro hmem
        exact ih (c.text :: seen) x h (List.mem_cons_of_mem _ hmem)

/-- The deduplicated candidates carry pairwise distinct texts. -/
theorem dedupAux_textNodup : ∀ (l : List Candidate) (seen : List PyStr),
    ((dedupAux seen l).map Candidate.text).Nodup := by
  intro l
  induction l with
  | nil => intro seen; simp [dedupAux]
  | cons c cs ih =>
    intro seen
    unfold dedupAux
    by_cases hc : c.text ∈ seen
    · rw [if_pos hc]; exact ih seen
    · rw [if_neg hc, List.map_cons]
      refine List.nodup_cons.mpr ⟨?_, ih (c.text :: seen)⟩
      intro hmem
      obtain ⟨x, hx, hxt⟩ := List.mem_map.mp hmem
      exact dedupAux_text_not_seen cs (c.text :: seen) x hx
        (by rw [hxt]; exact List.mem_cons_self _ _)

/-- Every input passage text survives deduplication (or was already seen). -/
theorem dedupAux_text_complete : ∀ (l : List Candidate) (seen : List PyStr),
    ∀ x ∈ l, x.text ∈ seen ∨ ∃ d ∈ dedupAux seen l, d.text = x.text := by
  intro l
  induction l with
  | nil => intro seen x hx; exact absurd hx (List.not_mem_nil x)
  | cons c cs ih =>
    intro seen x hx
    unfold dedupAux
    by_cases hc : c.text ∈ seen
    · rw [if_pos hc]
      rcases List.mem_cons.mp hx with h | h
      · subst h; exact Or.inl hc
      · exact ih seen x h
    · rw [if_neg hc]
      rcases List.mem_cons.mp hx with h | h
      · exact Or.inr ⟨c, List.mem_cons_self _ _, by rw [h]⟩
      · rcases ih (c.text :: seen) x h with hs | ⟨d, hd, hdt⟩
        · rcases List.mem_cons.mp hs with h2 | h2
          · exact Or.inr ⟨c, List.mem_cons_self _ _, h2.symm⟩
          · exact Or.inl h2
        · exact Or.inr ⟨d, List.mem_cons_of_mem c hd, hdt⟩

/-- Reranking permutes the deduplicated candidate list. -/
theorem rerank_perm_dedup (w : ℚ) (cands : List Candidate) :
    (LinearCombinationReranker.rerank w cands).Perm (dedupByText cands) :=
  List.mergeSort_perm (dedupByText cands) _

/-- The reranked list is sorted for the fused-score order. -/
theorem rerank_pairwise (w : ℚ) (cands : List Candidate) :
    (LinearCombinationReranker.rerank w cands).Pairwise (RerankLEP w) := by
  have h := List.sorted_mergeSort
    (rerankLE_trans w) (rerankLE_total w) (dedupByText cands)
  exact h.imp fun hab => by simpa [rerankLE, decide_eq_true_eq] using hab

/-- The reranked candidates carry pairwise distinct texts. -/
theorem rerank_textNodup (w : ℚ) (cands : List Candidate) :
    ((LinearCombinationReranker.rerank w cands).map Candidate.text).Nodup :=
  ((rerank_perm_dedup w cands).map Candidate.text).nodup_iff.mpr
    (dedupAux_textNodup cands [])

/-- C4: the Retriever fuses candidates with the linear combination
reranker at weight 0.7 — each fused score is
`0.7 * vector_score + 0.3 * lexical_score`, candidates are deduplicated by
passage identity before fusion, the kept list is sorted best-first with
ties broken by vector score then original lexical rank, exactly
`min top_k (number of distinct passages)` candidates are kept, and every
kept candidate ranks at least as well as every dropped one. -/
theorem retriever_fusion (cands : List Candidate) (top_k : Nat) :
    (∀ c, fusedScore (7/10) c = 7/10 * c.vecScore + 3/10 * c.lexScore) ∧
    (LinearCombinationReranker.rerank (7/10) cands).Pairwise (RerankLEP (7/10)) ∧
    (LinearCombinationReranker.rerank (7/10) cands).Perm (dedupByText cands) ∧
    ((LinearCombinationReranker.rerank (7/10) cands).map Candidate.text).Nodup ∧
    (∀ c ∈ LinearCombinationReranker.rerank (7/10) cands, c ∈ cands) ∧
    (∀ x ∈ cands, ∃ d ∈ LinearCombinationReranker.rerank (7/10) cands,
       d.text = x.text) ∧
    ((LinearCombinationReranker.rerank (7/10) cands).take top_k).length
        = min top_k (dedupByText cands).length ∧
    (∀ a ∈ (LinearCombinationReranker.rerank (7/10) cands).take top_k,
       ∀ b ∈ (LinearCombinationReranker.rerank (7/10) cands).drop top_k,
       RerankLEP (7/10) a b) := by
  have hperm := rerank_perm_dedup (7/10) cands
  have hsorted := rerank_pairwise (7/10) cands
  refine ⟨fun c => by unfold fusedScore; ring, hsorted, hperm,
    rerank_textNodup (7/10) cands, ?_, ?_, ?_, ?_⟩
  · intro c hc
    exact dedupAux_subset cands [] c (hperm.subset hc)
  · intro x hx
    rcases dedupAux_text_complete cands [] x hx with hs | ⟨d, hd, hdt⟩
    · exact absurd hs (List.not_mem_nil _)
    · exact ⟨d, hperm.symm.subset hd, hdt⟩
  · rw [List.length_take, hperm.length_eq]
  · intro a ha b hb
    have hpw := hsorted
    rw [← List.take_append_drop top_k
      (LinearCombinationReranker.rerank (7/10) cands), List.pairwise_append] at hpw
    exact hpw.2.2 a ha b hb

/-- A second candidate for the same passage as `testCand`. -/
def candDupB : Candidate :=
  { text := "hours".data, lexScore := 1/2, vecScore := 1, lexRank := 1 }

/-- A candidate for a distinct passage. -/
def candStaff : Candidate :=
  { text := "staff".data, lexScore := 0, vecScore := 3/4, lexRank := 2 }

/-- Witness for C4: three concrete candidates, two sharing a passage —
deduplication leaves two, and `top_k = 2` keeps both. -/
theorem retriever_fusion_witness :
    fusedScore (7/10) testCand = 7/10 * (1/2) + 3/10 * 1 ∧
    ((LinearCombinationReranker.rerank (7/10)
        [testCand, candDupB, candStaff]).take 2).length = 2 ∧
    (∃ d ∈ LinearCombinationReranker.rerank (7/10)
        [testCand, candDupB, candStaff], d.text = "hours".data) := by
  obtain ⟨h1, _, _, _, _, h6, h7, _⟩ :=
    retriever_fusion [testCand, candDupB, candStaff] 2
  refine ⟨(h1 testCand).trans (by norm_num [testCand]), ?_, ?_⟩
  · rw [h7]
    decide
  · simpa [testCand] using h6 testCand (by simp)

/-- C5: the Retriever result context is exactly the selected passage texts
joined with the literal separator `"- context block: "`; at most `top_k`
texts are selected, all distinct, each one the text of an input candidate;
when fewer than `top_k` distinct passages exist all of them are returned —
in particular a single-passage table queried with `top_k = 3` yields
exactly that passage's text. -/
theorem search_table_context :
    (∀ (raw : List Candidate) (top_k : Nat), ∃ texts : List PyStr,
       search_table_pure raw top_k = joinSepC "- context block: ".data texts ∧
       texts.length = min top_k (dedupByText raw).length ∧
       texts.Nodup ∧
       (∀ t ∈ texts, ∃ c ∈ raw, c.text = t)) ∧
    (∀ c : Candidate, search_table_pure [c] 3 = c.text) := by
  constructor
  · intro raw top_k
    refine ⟨((LinearCombinationReranker.rerank (7/10) raw).take top_k).map
      Candidate.text, rfl, ?_, ?_, ?_⟩
    · rw [List.length_map, List.length_take, (rerank_perm_dedup (7/10) raw).length_eq]
    · rw [List.map_take]
      exact (List.take_sublist _ _).nodup (rerank_textNodup (7/10) raw)
    · intro t ht
      obtain ⟨c, hc, rfl⟩ := List.mem_map.mp ht
      have hc2 : c ∈ LinearCombinationReranker.rerank (7/10) raw :=
        (List.take_sublist _ _).subset hc
      exact ⟨c, dedupAux_subset raw [] c ((rerank_perm_dedup (7/10) raw).subset hc2),
        rfl⟩
  · exact search_table_pure_singleton

/-- Witness for C5: the single-passage table, and a two-candidate list
deduplicating to one passage. -/
theorem search_table_context_witness :
    search_table_pure [testCand] 3 = "hours".data ∧
    (∃ texts, search_table_pure [testCand, candDupB] 1
        = joinSepC "- context block: ".data texts ∧ texts.length = 1) := by
  obtain ⟨hgen, hsingle⟩ := search_table_context
  refine ⟨(hsingle testCand).trans rfl, ?_⟩
  obtain ⟨texts, h1, h2, _, _⟩ := hgen [testCand, candDupB] 1
  refine ⟨texts, h1, ?_⟩
  rw [h2]
  decide

end BeatyPets
